import Mathlib

set_option autoImplicit false

/-!
Shallow embedding of the `xs` event store (src/src/store.rs, src/src/thread_pool.rs).

Modelling conventions:
* A `Scru128Id` is a 128-bit value whose textual and byte encodings are
  order-preserving, so frame identifiers and partition keys are modelled as `Nat`.
* The fjall `Partition` is a durable ordered map; we model it as the association
  list of its entries in ascending key order (the order a range scan yields).
* A persisted value either deserializes to a `Frame` or is corrupt; `Stored`
  abstracts the serialized bytes at exactly that granularity.
* A panic (`unwrap` / `panic!` on corrupt data) is modelled as `Except.error`.
* A subscriber channel is live (receiver still attached) or closed; sends to a
  live channel succeed and append to its received list, sends to a closed
  channel fail, which in `handle_append_command` drops the subscriber.
-/

namespace Xs

/-- `Frame` (src/store.rs:13-19): id, topic, optional CAS hash, optional metadata.
`hash` and `meta` are opaque to the store; we model them as optional strings. -/
structure Frame where
  id : Nat
  topic : String
  hash : Option String
  meta : Option String
  deriving DecidableEq, Repr

/-- `FollowOption` (src/store.rs:31-37). -/
inductive FollowOption where
  | off
  | on
  | withHeartbeat (millis : Nat)
  deriving DecidableEq, Repr

/-- `ReadOptions` (src/store.rs:70-83). The compaction strategy is a
caller-supplied function from a frame to an optional dedup key. -/
structure ReadOptions where
  follow : FollowOption := .off
  tail : Bool := false
  lastId : Option Nat := none
  compactionStrategy : Option (Frame → Option String) := none

/-- A persisted record value: either it deserializes to a frame or it is corrupt. -/
inductive Stored where
  | good (f : Frame)
  | corrupt
  deriving DecidableEq, Repr

/-- `serde_json::from_slice` on a stored value. -/
def fromSlice : Stored → Option Frame
  | .good f => some f
  | .corrupt => none

/-- The fjall partition: entries in ascending key order. -/
abbrev Partition := List (Nat × Stored)

/-- `deserialize_frame` (src/store.rs:311-317): panics (here: errors) when the
record fails to deserialize. -/
def deserializeFrame (s : Stored) : Except String Frame :=
  match fromSlice s with
  | some f => .ok f
  | none => .error "Failed to deserialize frame"

/-- `get_range` (src/store.rs:301-309) applied to the partition: `last_id` given
yields the scan over `(Excluded last_id, Unbounded)`, else the full scan. -/
def getRange (p : Partition) (lastId : Option Nat) : Partition :=
  match lastId with
  | some l => p.filter (fun r => l < r.1)
  | none => p

/-- `HashMap::insert` on the auxiliary compaction map (src/store.rs:255):
replace the value stored for an existing key, else add the entry. -/
def insertCompacted : List (String × Frame) → String → Frame → List (String × Frame)
  | [], k, f => [(k, f)]
  | (k', f') :: rest, k, f =>
    if k' = k then (k', f) :: rest else (k', f') :: insertCompacted rest k f

/-- One step of the replay loop body in `handle_read_command`
(src/store.rs:250-260): deserialize the record (panic on corruption); with a
compaction strategy, insert the frame under its dedup key (latest wins);
without one, stream the frame to the reply channel. -/
def replayStep (strat : Option (Frame → Option String))
    (acc : List Frame × List (String × Frame)) (rec : Nat × Stored) :
    Except String (List Frame × List (String × Frame)) := do
  let frame ← deserializeFrame rec.2
  match strat with
  | some cs =>
    match cs frame with
    | some key => pure (acc.1, insertCompacted acc.2 key frame)
    | none => pure acc
  | none => pure (acc.1 ++ [frame], acc.2)

/-- The synthetic `xs.threshold` frame sent in `handle_read_command`
(src/store.rs:273-281); `tid` is the fresh id `scru128::new()` produces. -/
def thresholdFrame (tid : Nat) : Frame :=
  { id := tid, topic := "xs.threshold", hash := none, meta := none }

/-- What a `Read` command produced: the frames sent to the reply channel, in
order, and whether the channel was registered as a live subscriber. -/
structure ReadResult where
  sent : List Frame
  registered : Bool
  deriving DecidableEq, Repr

/-- `handle_read_command` (src/store.rs:240-288). Unless `tail`, scan the range,
deserializing each record (a corrupt record panics the loop, modelled as
`Except.error`): with a compaction strategy keep the latest frame per dedup key
and send the compacted values after the scan; otherwise stream frames in scan
order. Then, when following: if not `tail` and no compaction strategy, send one
synthetic `xs.threshold` frame, and register the channel as a subscriber. -/
def handleReadCommand (p : Partition) (opts : ReadOptions) (tid : Nat) :
    Except String ReadResult := do
  let sent ←
    if opts.tail then pure []
    else do
      let (sent, compacted) ← (getRange p opts.lastId).foldlM
        (replayStep opts.compactionStrategy)
        (([], []) : List Frame × List (String × Frame))
      pure (if compacted.isEmpty then sent else sent ++ compacted.map Prod.snd)
  match opts.follow with
  | .off => pure { sent := sent, registered := false }
  | _ =>
    let sent :=
      if !opts.tail && opts.compactionStrategy.isNone then sent ++ [thresholdFrame tid]
      else sent
    pure { sent := sent, registered := true }

/-- A registered live subscriber: the frames its channel has received, and
whether the receiving end is still attached. -/
structure Sub where
  received : List Frame
  live : Bool
  deriving DecidableEq, Repr

/-- `handle_append_command` (src/store.rs:319-328): deliver the frame to every
registered subscriber, retaining only those whose send succeeds (live channel);
the partition is not touched here. -/
def handleAppendCommand (subs : List Sub) (frame : Frame) : List Sub :=
  subs.filterMap fun s =>
    if s.live then some { received := s.received ++ [frame], live := true } else none

/-- The commands of the store actor (src/store.rs:94-98). -/
inductive Command where
  | read (opts : ReadOptions) (tid : Nat)
  | append (frame : Frame)

/-- The state owned by the command-loop thread: the partition it scans and the
list of registered subscribers (src/store.rs:226-238). -/
structure LoopState where
  partition : Partition
  subs : List Sub

/-- One iteration of `handle_commands` (src/store.rs:226-238). A `Read` runs
`handle_read_command` against the current partition and, when it registers, the
reply channel joins the subscriber list carrying the frames already sent to it.
An `Append` only fans out: the command loop never writes the partition. -/
def stepCommand (st : LoopState) : Command → Except String LoopState
  | .read opts tid => do
    let r ← handleReadCommand st.partition opts tid
    pure { partition := st.partition
           subs := if r.registered then st.subs ++ [⟨r.sent, true⟩] else st.subs }
  | .append f =>
    pure { partition := st.partition, subs := handleAppendCommand st.subs f }

/-- The command loop: consume commands strictly in arrival order. -/
def runLoop (st : LoopState) : List Command → Except String LoopState
  | [] => .ok st
  | c :: cs => do runLoop (← stepCommand st c) cs

/-- Sorted-map insertion, the effect of `partition.insert(id.to_bytes(), v)`. -/
def insertSorted : Partition → Nat → Stored → Partition
  | [], k, v => [(k, v)]
  | (k', v') :: rest, k, v =>
    if k < k' then (k, v) :: (k', v') :: rest
    else if k = k' then (k, v) :: rest
    else (k', v') :: insertSorted rest k v

/-- Caller side of `Store::append` (src/store.rs:190-213): the *caller's* task
constructs the frame with an id it generates itself (`scru128::new()`, the
code's own TODO notes it should instead come from the command loop), inserts
`{id → serialized frame}` into the partition itself, and only then sends
`Command::Append` to the loop. Returns the finalized frame, the caller-mutated
partition, and the command handed to the loop. -/
def storeAppend (p : Partition) (freshId : Nat) (topic : String)
    (hash meta : Option String) : Frame × Partition × Command :=
  let f : Frame := { id := freshId, topic := topic, hash := hash, meta := meta }
  (f, insertSorted p freshId (.good f), .append f)

/-- `Store::get` (src/store.rs:153-156): point lookup, then
`serde_json::from_slice(..).unwrap()` — a corrupt record panics (errors). -/
def storeGet (p : Partition) (id : Nat) : Except String (Option Frame) :=
  match p.lookup id with
  | none => .ok none
  | some s =>
    match fromSlice s with
    | some f => .ok (some f)
    | none => .error "Failed to deserialize frame"

/-- `Store::head` (src/store.rs:158-170): reverse scan with `find_map`; a record
that fails to deserialize makes the closure return `None` (`.ok()?`), so the
scan *skips it* and continues with the next record. -/
def storeHead (p : Partition) (topic : String) : Option Frame :=
  p.reverse.findSome? fun r =>
    match fromSlice r.2 with
    | none => none
    | some f => if f.topic = topic then some f else none

/-- What a call to `Store::read` (src/store.rs:126-151) sets up, once its
command has been processed: the frames already sent to the returned channel,
whether a heartbeat task was spawned (exactly when `follow` is
`WithHeartbeat`), and whether the channel was registered as a subscriber
(when not, nothing else will ever send on it and it closes). -/
structure ReadCallResult where
  sent : List Frame
  heartbeatSpawned : Bool
  registered : Bool
  deriving DecidableEq, Repr

/-- `Store::read` followed by the loop's processing of its `Read` command. -/
def storeRead (p : Partition) (opts : ReadOptions) (tid : Nat) :
    Except String ReadCallResult :=
  (handleReadCommand p opts tid).map fun r =>
    { sent := r.sent
      heartbeatSpawned := match opts.follow with
        | .withHeartbeat _ => true
        | _ => false
      registered := r.registered }

/-- `TTL` (named by its caller src/nu/commands/append_command.rs:67-86; the
spec fixes the variants: `Forever`, `Ephemeral`, `Time(duration)`, `Head(n)`). -/
inductive TTL where
  | forever
  | ephemeral
  | time (millis : Nat)
  | head (n : Nat)
  deriving DecidableEq, Repr

/-- Modelled from the spec: the TTL-aware append of this repository is missing
from src/ (only its caller `AppendCommand::run`, which builds a frame draft
with a `ttl`, is present). Per the spec, the actor "persists `{id → serialized
frame}` into the Partition (skipped entirely for `Ephemeral` frames — they
bypass persistence), then delivers the finalized frame to every
currently-registered live subscriber". -/
def appendWithTTL (p : Partition) (subs : List Sub) (freshId : Nat)
    (topic : String) (hash meta : Option String) (ttl : TTL) :
    Frame × Partition × List Sub :=
  let f : Frame := { id := freshId, topic := topic, hash := hash, meta := meta }
  let p' := if ttl = .ephemeral then p else insertSorted p freshId (.good f)
  (f, p', handleAppendCommand subs f)

/-! ### Query-string decoding (src/store.rs:39-92) -/

/-- Rust `str::parse::<u64>`: an optional leading `+`, then one or more ASCII
digits, and the value fits in 64 bits. -/
def parseU64 (s : String) : Option Nat :=
  let cs := match s.data with
    | '+' :: rest => rest
    | cs => cs
  if cs = [] then none
  else if cs.all Char.isDigit then
    let n := cs.foldl (fun acc c => acc * 10 + (c.toNat - '0'.toNat)) 0
    if n < 2 ^ 64 then some n else none
  else none

/-- `FollowOption::deserialize` (src/store.rs:39-57): empty or `yes` means
`On`; else a string parsing as `u64` means `WithHeartbeat` of that many
milliseconds; else `true` means `On`, `false`/`no` mean `Off`, and anything
else is rejected. -/
def parseFollow (s : String) : Option FollowOption :=
  if s = "" ∨ s = "yes" then some .on
  else
    match parseU64 s with
    | some n => some (.withHeartbeat n)
    | none =>
      match s with
      | "true" => some .on
      | "false" => some .off
      | "no" => some .off
      | _ => none

/-- `deserialize_bool` (src/store.rs:59-68): `false`, `no`, `0` decode to
`false`; anything else to `true`. -/
def parseTail (s : String) : Bool :=
  if s = "false" ∨ s = "no" ∨ s = "0" then false else true

/-- One base-36 digit of a SCRU128 string (case-insensitive). -/
def base36Digit (c : Char) : Option Nat :=
  if c.isDigit then some (c.toNat - '0'.toNat)
  else if 'A' ≤ c ∧ c ≤ 'Z' then some (c.toNat - 'A'.toNat + 10)
  else if 'a' ≤ c ∧ c ≤ 'z' then some (c.toNat - 'a'.toNat + 10)
  else none

/-- `Scru128Id` parsing: exactly 25 base-36 digits (case-insensitive) whose
value fits in 128 bits. -/
def parseScru128 (s : String) : Option Nat :=
  if s.length = 25 ∧ s.data.all (fun c => (base36Digit c).isSome) then
    let n := s.data.foldl (fun acc c => acc * 36 + (base36Digit c).getD 0) 0
    if n < 2 ^ 128 then some n else none
  else none

/-- One key/value pair of the query applied to the options being built:
`follow` via `FollowOption::deserialize`, `tail` via `deserialize_bool`,
`last-id` via `Scru128Id` parsing; unknown keys are ignored; a parse failure
rejects the query. -/
def applyPair (o : ReadOptions) (kv : String × String) : Option ReadOptions :=
  if kv.1 = "follow" then (parseFollow kv.2).map fun fo => { o with follow := fo }
  else if kv.1 = "tail" then some { o with tail := parseTail kv.2 }
  else if kv.1 = "last-id" then (parseScru128 kv.2).map fun i => { o with lastId := some i }
  else some o

/-- `ReadOptions::from_query` (src/store.rs:85-92) over the key/value pairs the
urlencoded layer yields; `none` models the deserialization `Err`. -/
def fromQuery (pairs : List (String × String)) : Option ReadOptions :=
  pairs.foldlM applyPair {}

/-! ### Worker pool (src/thread_pool.rs), one worker and one job.

The worker thread loops: block in `rx.recv()` on the zero-capacity channel,
`fetch_add` the active count, run the job, `fetch_sub`, and on a transition to
zero take the lock and `notify_all`. The submitting thread runs `execute`
(a rendezvous send: it completes together with the worker's `recv`) and then
`wait_for_completion` (lock; while the count is positive, wait on the condvar;
return when a check sees zero). Each of those accesses is one atomic step of a
labelled transition system; a schedule picks which thread steps next, and a
disabled step (a blocked thread) leaves the state unchanged. -/

/-- Program counter of the worker thread (src/thread_pool.rs:24-42). -/
inductive WorkerPC where
  | recvWait
  | gotJob
  | counted
  | jobRan
  | decremented
  deriving DecidableEq, Repr

/-- Program counter of the submitting thread: `execute`, then
`wait_for_completion` (the check, possibly blocking in `cvar.wait`), then
returned. -/
inductive MainPC where
  | toExecute
  | toWait
  | blocked
  | returned
  deriving DecidableEq, Repr

/-- Shared state of the pool: the `active_count` atomic, whether the single
job's body has run, a pending condvar wakeup, and both program counters. -/
structure PoolState where
  counter : Nat
  jobDone : Bool
  notified : Bool
  worker : WorkerPC
  main : MainPC
  deriving DecidableEq, Repr

/-- Which thread the schedule lets take the next atomic step. -/
inductive Thread where
  | worker
  | main
  deriving DecidableEq, Repr

/-- One atomic step of the chosen thread, per src/thread_pool.rs:
worker: `recv` (completes only jointly with `execute`), `fetch_add`, the job
body, `fetch_sub`, and the conditional `notify_all`;
main: `execute`'s rendezvous send, `wait_for_completion`'s counter check
(return on zero, else block), and re-check after a wakeup. -/
def poolStep (s : PoolState) : Thread → PoolState
  | .worker =>
    match s.worker with
    | .recvWait => s
    | .gotJob => { s with counter := s.counter + 1, worker := .counted }
    | .counted => { s with jobDone := true, worker := .jobRan }
    | .jobRan => { s with counter := s.counter - 1, worker := .decremented }
    | .decremented =>
      if s.counter = 0 then { s with notified := true, worker := .recvWait }
      else { s with worker := .recvWait }
  | .main =>
    match s.main with
    | .toExecute =>
      if s.worker = .recvWait then { s with worker := .gotJob, main := .toWait } else s
    | .toWait =>
      if s.counter = 0 then { s with main := .returned } else { s with main := .blocked }
    | .blocked =>
      if s.notified then
        if s.counter = 0 then { s with main := .returned, notified := false }
        else { s with notified := false }
      else s
    | .returned => s

/-- Run the pool under a schedule. -/
def runPool (s : PoolState) (sched : List Thread) : PoolState :=
  sched.foldl poolStep s

/-- Initial state: counter zero, job not run, worker blocked in `recv`, main
about to `execute` the one job. -/
def poolInit : PoolState :=
  { counter := 0, jobDone := false, notified := false
    worker := .recvWait, main := .toExecute }

/-! ## Helper notions and lemmas -/

/-- `g` is the decoding of some record of `p`. -/
def decodedMem (p : Partition) (g : Frame) : Prop :=
  ∃ r ∈ p, fromSlice r.2 = some g

/-- The latest (by scan order) frame of `fs` whose dedup key is `k`. -/
def lastWithKey (cs : Frame → Option String) (fs : List Frame) (k : String) :
    Option Frame :=
  match fs with
  | [] => none
  | f :: rest =>
    match lastWithKey cs rest k with
    | some g => some g
    | none => if cs f = some k then some f else none

/-- First value stored under key `k` in an association list. -/
def lookupA : List (String × Frame) → String → Option Frame
  | [], _ => none
  | (k', v) :: rest, k => if k' = k then some v else lookupA rest k

/-- The auxiliary compaction map after scanning the frames `fs` in order,
starting from map `m`: exactly what the replay fold builds under a strategy. -/
def compactFold (cs : Frame → Option String) (m : List (String × Frame)) :
    List Frame → List (String × Frame)
  | [] => m
  | f :: rest =>
    match cs f with
    | some k => compactFold cs (insertCompacted m k f) rest
    | none => compactFold cs m rest

/-- The frames the replay part of `handle_read_command` sends, used to
characterize `handleReadCommand` below. -/
def replaySent (p : Partition) (opts : ReadOptions) : Except String (List Frame) :=
  if opts.tail then .ok []
  else
    ((getRange p opts.lastId).foldlM (replayStep opts.compactionStrategy) ([], [])).map
      fun sc => if sc.2.isEmpty then sc.1 else sc.1 ++ sc.2.map Prod.snd

theorem handleReadCommand_spec (p : Partition) (opts : ReadOptions) (tid : Nat) :
    handleReadCommand p opts tid =
      (replaySent p opts).map fun sent =>
        match opts.follow with
        | .off => ⟨sent, false⟩
        | _ =>
          ⟨if !opts.tail && opts.compactionStrategy.isNone
            then sent ++ [thresholdFrame tid] else sent, true⟩ := by
  unfold handleReadCommand replaySent
  cases htail : opts.tail with
  | true => cases opts.follow <;> rfl
  | false =>
    cases hfold :
        (getRange p opts.lastId).foldlM (replayStep opts.compactionStrategy)
          (([], []) : List Frame × List (String × Frame)) with
    | error e => cases opts.follow <;> simp [hfold, Except.map, Bind.bind, Except.bind]
    | ok sc =>
      cases opts.follow <;>
        simp only [hfold, Except.map, Bind.bind, Except.bind] <;> rfl

theorem exceptBind_ok {α β : Type} (x : α) (g : α → Except String β) :
    (Except.ok x >>= g) = g x := rfl

theorem exceptBind_error {α β : Type} (e : String) (g : α → Except String β) :
    ((Except.error e : Except String α) >>= g) = .error e := rfl

theorem replayStep_good_none (acc : List Frame × List (String × Frame))
    (k : Nat) (f : Frame) :
    replayStep none acc (k, .good f) = .ok (acc.1 ++ [f], acc.2) := rfl

/-- Replay without a compaction strategy streams the decoded frames in scan
order, appended to whatever was already sent. -/
theorem foldlM_replayStep_none (key : Frame → Nat) (fs : List Frame) :
    ∀ acc : List Frame × List (String × Frame),
      (fs.map fun f => (key f, Stored.good f)).foldlM (replayStep none) acc =
        .ok (acc.1 ++ fs, acc.2) := by
  induction fs with
  | nil =>
    intro acc
    simp only [List.map_nil, List.append_nil]
    rfl
  | cons f rest ih =>
    intro acc
    rw [List.map_cons, List.foldlM_cons, replayStep_good_none, exceptBind_ok, ih]
    simp

/-- A corrupt record anywhere in the scanned range makes the replay fold panic
(error), whatever the compaction strategy. -/
theorem foldlM_replayStep_corrupt (strat : Option (Frame → Option String)) :
    ∀ (recs : Partition) (acc : List Frame × List (String × Frame)),
      (∃ r ∈ recs, fromSlice r.2 = none) →
      ∃ e, recs.foldlM (replayStep strat) acc = .error e := by
  intro recs
  induction recs with
  | nil => rintro acc ⟨r, hr, -⟩; cases hr
  | cons rec rest ih =>
    rintro acc ⟨r, hr, hcor⟩
    rw [List.foldlM_cons]
    rcases List.mem_cons.mp hr with rfl | hr'
    · have hstep : replayStep strat acc r = .error "Failed to deserialize frame" := by
        unfold replayStep deserializeFrame
        rw [hcor]
        rfl
      refine ⟨"Failed to deserialize frame", ?_⟩
      rw [hstep]
      rfl
    · cases hstep : replayStep strat acc rec with
      | error e => exact ⟨e, rfl⟩
      | ok acc' =>
        obtain ⟨e, he⟩ := ih acc' ⟨r, hr', hcor⟩
        exact ⟨e, he⟩

theorem insertCompacted_mem :
    ∀ (m : List (String × Frame)) (k : String) (f : Frame) (kf : String × Frame),
      kf ∈ insertCompacted m k f → kf ∈ m ∨ kf = (k, f) := by
  intro m
  induction m with
  | nil =>
    intro k f kf h
    simp [insertCompacted] at h
    exact Or.inr h
  | cons kv rest ih =>
    intro k f kf h
    obtain ⟨k'', v⟩ := kv
    by_cases hk : k'' = k
    · subst hk
      have hins : insertCompacted ((k'', v) :: rest) k'' f = (k'', f) :: rest := by
        show (if k'' = k'' then (k'', f) :: rest else (k'', v) :: insertCompacted rest k'' f) =
          (k'', f) :: rest
        exact if_pos rfl
      rw [hins] at h
      rcases List.mem_cons.mp h with h | h
      · exact Or.inr h
      · exact Or.inl (List.mem_cons_of_mem _ h)
    · have hins : insertCompacted ((k'', v) :: rest) k f =
          (k'', v) :: insertCompacted rest k f := by
        show (if k'' = k then (k'', f) :: rest else (k'', v) :: insertCompacted rest k f) =
          (k'', v) :: insertCompacted rest k f
        exact if_neg hk
      rw [hins] at h
      rcases List.mem_cons.mp h with h | h
      · exact Or.inl (h ▸ List.mem_cons_self _ _)
      · rcases ih k f kf h with h' | h'
        · exact Or.inl (List.mem_cons_of_mem _ h')
        · exact Or.inr h'

/-- Wherever one replay step sends or stores a frame, that frame was already in
the accumulator or decodes from the record just scanned. -/
theorem replayStep_mem (strat : Option (Frame → Option String))
    (acc : List Frame × List (String × Frame)) (rec : Nat × Stored)
    (acc' : List Frame × List (String × Frame))
    (h : replayStep strat acc rec = .ok acc') :
    (∀ g ∈ acc'.1, g ∈ acc.1 ∨ fromSlice rec.2 = some g) ∧
    (∀ kf ∈ acc'.2, kf ∈ acc.2 ∨ fromSlice rec.2 = some kf.2) := by
  obtain ⟨k₀, s⟩ := rec
  cases s with
  | corrupt => exact Except.noConfusion h
  | good f =>
    cases strat with
    | none =>
      have hacc : (acc.1 ++ [f], acc.2) = acc' := by
        injection h
      subst hacc
      refine ⟨fun g hg => ?_, fun kf hkf => Or.inl hkf⟩
      rcases List.mem_append.mp hg with h' | h'
      · exact Or.inl h'
      · simp at h'
        exact Or.inr (by rw [h']; rfl)
    | some cs =>
      cases hk : cs f with
      | none =>
        have hstep : replayStep (some cs) acc (k₀, .good f) = .ok acc := by
          show (match cs f with
                | some key =>
                  (pure (acc.1, insertCompacted acc.2 key f) :
                    Except String (List Frame × List (String × Frame)))
                | none => pure acc) = .ok acc
          rw [hk]
          rfl
        rw [hstep] at h
        have hacc : acc = acc' := by injection h
        subst hacc
        exact ⟨fun g hg => Or.inl hg, fun kf hkf => Or.inl hkf⟩
      | some k =>
        have hstep : replayStep (some cs) acc (k₀, .good f) =
            .ok (acc.1, insertCompacted acc.2 k f) := by
          show (match cs f with
                | some key =>
                  (pure (acc.1, insertCompacted acc.2 key f) :
                    Except String (List Frame × List (String × Frame)))
                | none => pure acc) = .ok (acc.1, insertCompacted acc.2 k f)
          rw [hk]
          rfl
        rw [hstep] at h
        have hacc : (acc.1, insertCompacted acc.2 k f) = acc' := by injection h
        subst hacc
        refine ⟨fun g hg => Or.inl hg, fun kf hkf => ?_⟩
        rcases insertCompacted_mem acc.2 k f kf hkf with h' | h'
        · exact Or.inl h'
        · exact Or.inr (by rw [h']; rfl)

/-- Frames produced by the whole replay fold decode from scanned records. -/
theorem foldlM_replayStep_mem (strat : Option (Frame → Option String)) :
    ∀ (recs : Partition) (acc res : List Frame × List (String × Frame)),
      recs.foldlM (replayStep strat) acc = .ok res →
      (∀ g ∈ res.1, g ∈ acc.1 ∨ decodedMem recs g) ∧
      (∀ kf ∈ res.2, kf ∈ acc.2 ∨ decodedMem recs kf.2) := by
  intro recs
  induction recs with
  | nil =>
    intro acc res h
    have hacc : acc = res := by injection h
    subst hacc
    exact ⟨fun g hg => Or.inl hg, fun kf hkf => Or.inl hkf⟩
  | cons rec rest ih =>
    intro acc res h
    rw [List.foldlM_cons] at h
    cases hstep : replayStep strat acc rec with
    | error e =>
      rw [hstep, exceptBind_error] at h
      exact Except.noConfusion h
    | ok acc' =>
      rw [hstep, exceptBind_ok] at h
      obtain ⟨ih1, ih2⟩ := ih acc' res h
      obtain ⟨s1, s2⟩ := replayStep_mem strat acc rec acc' hstep
      constructor
      · intro g hg
        rcases ih1 g hg with hg' | ⟨r, hr, hd⟩
        · rcases s1 g hg' with h' | h'
          · exact Or.inl h'
          · exact Or.inr ⟨rec, List.mem_cons_self _ _, h'⟩
        · exact Or.inr ⟨r, List.mem_cons_of_mem _ hr, hd⟩
      · intro kf hkf
        rcases ih2 kf hkf with hkf' | ⟨r, hr, hd⟩
        · rcases s2 kf hkf' with h' | h'
          · exact Or.inl h'
          · exact Or.inr ⟨rec, List.mem_cons_self _ _, h'⟩
        · exact Or.inr ⟨r, List.mem_cons_of_mem _ hr, hd⟩

theorem compactFold_cons_some (cs : Frame → Option String)
    (m : List (String × Frame)) (f : Frame) (rest : List Frame) (k : String)
    (hk : cs f = some k) :
    compactFold cs m (f :: rest) = compactFold cs (insertCompacted m k f) rest := by
  show (match cs f with
        | some k' => compactFold cs (insertCompacted m k' f) rest
        | none => compactFold cs m rest) = _
  rw [hk]

theorem compactFold_cons_none (cs : Frame → Option String)
    (m : List (String × Frame)) (f : Frame) (rest : List Frame)
    (hk : cs f = none) :
    compactFold cs m (f :: rest) = compactFold cs m rest := by
  show (match cs f with
        | some k' => compactFold cs (insertCompacted m k' f) rest
        | none => compactFold cs m rest) = _
  rw [hk]

/-- Replay with a compaction strategy streams nothing and builds exactly the
compaction map. -/
theorem foldlM_replayStep_some (cs : Frame → Option String) (key : Frame → Nat)
    (fs : List Frame) :
    ∀ acc : List Frame × List (String × Frame),
      (fs.map fun f => (key f, Stored.good f)).foldlM (replayStep (some cs)) acc =
        .ok (acc.1, compactFold cs acc.2 fs) := by
  induction fs with
  | nil => intro acc; rfl
  | cons f rest ih =>
    intro acc
    rw [List.map_cons, List.foldlM_cons]
    cases hk : cs f with
    | none =>
      have hstep : replayStep (some cs) acc (key f, .good f) = .ok acc := by
        show (match cs f with
              | some k =>
                (pure (acc.1, insertCompacted acc.2 k f) :
                  Except String (List Frame × List (String × Frame)))
              | none => pure acc) = .ok acc
        rw [hk]
        rfl
      rw [hstep, exceptBind_ok, ih, compactFold_cons_none cs acc.2 f rest hk]
    | some k =>
      have hstep : replayStep (some cs) acc (key f, .good f) =
          .ok (acc.1, insertCompacted acc.2 k f) := by
        show (match cs f with
              | some k' =>
                (pure (acc.1, insertCompacted acc.2 k' f) :
                  Except String (List Frame × List (String × Frame)))
              | none => pure acc) = .ok (acc.1, insertCompacted acc.2 k f)
        rw [hk]
        rfl
      rw [hstep, exceptBind_ok, ih, compactFold_cons_some cs acc.2 f rest k hk]

theorem insertCompacted_lookupA :
    ∀ (m : List (String × Frame)) (k : String) (f : Frame) (k' : String),
      lookupA (insertCompacted m k f) k' =
        if k = k' then some f else lookupA m k' := by
  intro m
  induction m with
  | nil => intro k f k'; rfl
  | cons kv rest ih =>
    intro k f k'
    obtain ⟨k'', v⟩ := kv
    by_cases hk : k'' = k
    · subst hk
      have hins : insertCompacted ((k'', v) :: rest) k'' f = (k'', f) :: rest := by
        show (if k'' = k'' then (k'', f) :: rest
              else (k'', v) :: insertCompacted rest k'' f) = (k'', f) :: rest
        exact if_pos rfl
      rw [hins]
      show (if k'' = k' then some f else lookupA rest k') = _
      by_cases h : k'' = k'
      · rw [if_pos h, if_pos h]
      · rw [if_neg h, if_neg h]
        show _ = if k'' = k' then some v else lookupA rest k'
        rw [if_neg h]
    · have hins : insertCompacted ((k'', v) :: rest) k f =
          (k'', v) :: insertCompacted rest k f := by
        show (if k'' = k then (k'', f) :: rest
              else (k'', v) :: insertCompacted rest k f) = _
        exact if_neg hk
      rw [hins]
      show (if k'' = k' then some v else lookupA (insertCompacted rest k f) k') = _
      by_cases h : k'' = k'
      · have hkk : ¬k = k' := fun hh => hk (hh ▸ h)
        rw [if_pos h, if_neg hkk]
        show _ = if k'' = k' then some v else lookupA rest k'
        rw [if_pos h]
      · rw [if_neg h, ih]
        by_cases hkk : k = k'
        · rw [if_pos hkk, if_pos hkk]
        · rw [if_neg hkk, if_neg hkk]
          show _ = if k'' = k' then some v else lookupA rest k'
          rw [if_neg h]

/-- The compaction map holds, for each dedup key, exactly the latest scanned
frame with that key. -/
theorem compactFold_lookupA (cs : Frame → Option String) (fs : List Frame) :
    ∀ (m : List (String × Frame)) (k : String),
      lookupA (compactFold cs m fs) k =
        match lastWithKey cs fs k with
        | some g => some g
        | none => lookupA m k := by
  induction fs with
  | nil => intro m k; rfl
  | cons f rest ih =>
    intro m k
    cases hk : cs f with
    | none =>
      rw [compactFold_cons_none cs m f rest hk, ih]
      cases hrest : lastWithKey cs rest k with
      | some g =>
        show some g = _
        show some g = (match lastWithKey cs (f :: rest) k with
          | some g => some g
          | none => lookupA m k)
        have : lastWithKey cs (f :: rest) k = some g := by
          show (match lastWithKey cs rest k with
                | some g => some g
                | none => if cs f = some k then some f else none) = some g
          rw [hrest]
        rw [this]
      | none =>
        have : lastWithKey cs (f :: rest) k = none := by
          show (match lastWithKey cs rest k with
                | some g => some g
                | none => if cs f = some k then some f else none) = none
          rw [hrest, hk]
          simp
        rw [this]
    | some k' =>
      rw [compactFold_cons_some cs m f rest k' hk, ih, insertCompacted_lookupA]
      cases hrest : lastWithKey cs rest k with
      | some g =>
        have : lastWithKey cs (f :: rest) k = some g := by
          show (match lastWithKey cs rest k with
                | some g => some g
                | none => if cs f = some k then some f else none) = some g
          rw [hrest]
        rw [this]
      | none =>
        have hcons : lastWithKey cs (f :: rest) k =
            if cs f = some k then some f else none := by
          show (match lastWithKey cs rest k with
                | some g => some g
                | none => if cs f = some k then some f else none) = _
          rw [hrest]
        rw [hcons, hk]
        by_cases h : k' = k
        · rw [if_pos h, if_pos (by rw [h])]
        · rw [if_neg h, if_neg (fun hh : some k' = some k => h (Option.some.inj hh))]

theorem insertCompacted_keys_mem :
    ∀ (m : List (String × Frame)) (k : String) (f : Frame) (a : String),
      a ∈ (insertCompacted m k f).map Prod.fst → a ∈ m.map Prod.fst ∨ a = k := by
  intro m k f a ha
  rcases List.mem_map.mp ha with ⟨kf, hkf, rfl⟩
  rcases insertCompacted_mem m k f kf hkf with h | h
  · exact Or.inl (List.mem_map_of_mem _ h)
  · exact Or.inr (by rw [h])

theorem insertCompacted_keys_nodup :
    ∀ (m : List (String × Frame)) (k : String) (f : Frame),
      (m.map Prod.fst).Nodup → ((insertCompacted m k f).map Prod.fst).Nodup := by
  intro m
  induction m with
  | nil => intro k f _; simp [insertCompacted]
  | cons kv rest ih =>
    intro k f hnd
    obtain ⟨k'', v⟩ := kv
    rw [List.map_cons, List.nodup_cons] at hnd
    by_cases hk : k'' = k
    · subst hk
      have hins : insertCompacted ((k'', v) :: rest) k'' f = (k'', f) :: rest := by
        show (if k'' = k'' then (k'', f) :: rest
              else (k'', v) :: insertCompacted rest k'' f) = (k'', f) :: rest
        exact if_pos rfl
      rw [hins, List.map_cons, List.nodup_cons]
      exact hnd
    · have hins : insertCompacted ((k'', v) :: rest) k f =
          (k'', v) :: insertCompacted rest k f := by
        show (if k'' = k then (k'', f) :: rest
              else (k'', v) :: insertCompacted rest k f) = _
        exact if_neg hk
      rw [hins, List.map_cons, List.nodup_cons]
      refine ⟨fun hmem => ?_, ih k f hnd.2⟩
      rcases insertCompacted_keys_mem rest k f k'' hmem with h | h
      · exact hnd.1 h
      · exact hk h

theorem compactFold_keys_nodup (cs : Frame → Option String) (fs : List Frame) :
    ∀ m : List (String × Frame),
      (m.map Prod.fst).Nodup → ((compactFold cs m fs).map Prod.fst).Nodup := by
  induction fs with
  | nil => intro m h; exact h
  | cons f rest ih =>
    intro m h
    cases hk : cs f with
    | none => rw [compactFold_cons_none cs m f rest hk]; exact ih m h
    | some k =>
      rw [compactFold_cons_some cs m f rest k hk]
      exact ih _ (insertCompacted_keys_nodup m k f h)

/-- Every entry of the compaction map carries a frame whose dedup key is the
entry's key. -/
theorem compactFold_entries (cs : Frame → Option String) (fs : List Frame) :
    ∀ m : List (String × Frame),
      (∀ kf ∈ m, cs kf.2 = some kf.1) →
      ∀ kf ∈ compactFold cs m fs, cs kf.2 = some kf.1 := by
  induction fs with
  | nil => intro m h; exact h
  | cons f rest ih =>
    intro m h
    cases hk : cs f with
    | none => rw [compactFold_cons_none cs m f rest hk]; exact ih m h
    | some k =>
      rw [compactFold_cons_some cs m f rest k hk]
      refine ih _ fun kf hkf => ?_
      rcases insertCompacted_mem m k f kf hkf with h' | h'
      · exact h kf h'
      · rw [h']
        exact hk

theorem getRange_some (p : Partition) (l : Nat) :
    getRange p (some l) = p.filter fun r => l < r.1 := rfl

/-- The range scan over a partition of well-formed records keyed by `key`. -/
theorem getRange_map (key : Frame → Nat) (fs : List Frame) (l : Nat) :
    getRange (fs.map fun f => (key f, Stored.good f)) (some l) =
      (fs.filter fun f => l < key f).map fun f => (key f, Stored.good f) := by
  rw [getRange_some]
  induction fs with
  | nil => rfl
  | cons f rest ih =>
    rw [List.map_cons, List.filter_cons, List.filter_cons]
    by_cases h : l < key f
    · simp [h, ih]
    · simp [h, ih]

/-- Every frame `replaySent` emits decodes from some record of the partition. -/
theorem replaySent_mem (p : Partition) (opts : ReadOptions) (sent : List Frame)
    (h : replaySent p opts = .ok sent) :
    ∀ g ∈ sent, decodedMem p g := by
  unfold replaySent at h
  by_cases htail : opts.tail = true
  · rw [if_pos htail] at h
    have hs : [] = sent := by injection h
    subst hs
    intro g hg
    cases hg
  · rw [if_neg htail] at h
    cases hfold : (getRange p opts.lastId).foldlM (replayStep opts.compactionStrategy)
        (([], []) : List Frame × List (String × Frame)) with
    | error e =>
      rw [hfold] at h
      exact Except.noConfusion h
    | ok sc =>
      rw [hfold] at h
      have hs : (if sc.2.isEmpty then sc.1 else sc.1 ++ sc.2.map Prod.snd) = sent := by
        injection h
      obtain ⟨m1, m2⟩ := foldlM_replayStep_mem _ (getRange p opts.lastId) ([], []) sc hfold
      intro g hg
      rw [← hs] at hg
      have hdec : decodedMem (getRange p opts.lastId) g := by
        by_cases he : sc.2.isEmpty
        · rw [if_pos he] at hg
          rcases m1 g hg with h' | h'
          · cases h'
          · exact h'
        · rw [if_neg he] at hg
          rcases List.mem_append.mp hg with hg' | hg'
          · rcases m1 g hg' with h' | h'
            · cases h'
            · exact h'
          · rcases List.mem_map.mp hg' with ⟨kf, hkf, hkf2⟩
            rcases m2 kf hkf with h' | h'
            · cases h'
            · exact hkf2 ▸ h'
      obtain ⟨rr, hrr, hdd⟩ := hdec
      refine ⟨rr, ?_, hdd⟩
      cases hli : opts.lastId with
      | none => rw [hli] at hrr; exact hrr
      | some l =>
        rw [hli] at hrr
        exact List.mem_of_mem_filter hrr

/-- Every frame `handle_read_command` sends decodes from some partition record
or is the synthetic threshold frame. -/
theorem handleReadCommand_sent_mem (p : Partition) (opts : ReadOptions) (tid : Nat)
    (r : ReadResult) (h : handleReadCommand p opts tid = .ok r) :
    ∀ g ∈ r.sent, decodedMem p g ∨ g = thresholdFrame tid := by
  rw [handleReadCommand_spec] at h
  cases hro : replaySent p opts with
  | error e =>
    rw [hro] at h
    exact Except.noConfusion h
  | ok sent =>
    rw [hro] at h
    have hsent := replaySent_mem p opts sent hro
    cases hf : opts.follow
    · rw [hf] at h
      have hr : ({ sent := sent, registered := false } : ReadResult) = r := by injection h
      rw [← hr]
      intro g hg
      exact Or.inl (hsent g hg)
    · rw [hf] at h
      have hr : ({ sent := if !opts.tail && opts.compactionStrategy.isNone
          then sent ++ [thresholdFrame tid] else sent, registered := true } : ReadResult)
          = r := by injection h
      rw [← hr]
      intro g hg
      simp only at hg
      by_cases hc : (!opts.tail && opts.compactionStrategy.isNone) = true
      · rw [if_pos hc] at hg
        rcases List.mem_append.mp hg with hg' | hg'
        · exact Or.inl (hsent g hg')
        · simp at hg'
          exact Or.inr hg'
      · rw [if_neg hc] at hg
        exact Or.inl (hsent g hg)
    · rw [hf] at h
      have hr : ({ sent := if !opts.tail && opts.compactionStrategy.isNone
          then sent ++ [thresholdFrame tid] else sent, registered := true } : ReadResult)
          = r := by injection h
      rw [← hr]
      intro g hg
      simp only at hg
      by_cases hc : (!opts.tail && opts.compactionStrategy.isNone) = true
      · rw [if_pos hc] at hg
        rcases List.mem_append.mp hg with hg' | hg'
        · exact Or.inl (hsent g hg')
        · simp at hg'
          exact Or.inr hg'
      · rw [if_neg hc] at hg
        exact Or.inl (hsent g hg)

/-- A successful `findSome?` exhibits a witness in the list. -/
theorem findSome?_exists {α β : Type} (g : α → Option β) :
    ∀ (l : List α) (b : β), l.findSome? g = some b → ∃ a, a ∈ l ∧ g a = some b := by
  intro l
  induction l with
  | nil => intro b h; cases h
  | cons a rest ih =>
    intro b h
    rw [List.findSome?_cons] at h
    cases hga : g a with
    | some b' =>
      rw [hga] at h
      exact ⟨a, List.mem_cons_self _ _, by rw [hga]; exact h⟩
    | none =>
      rw [hga] at h
      obtain ⟨a', ha', hg'⟩ := ih b h
      exact ⟨a', List.mem_cons_of_mem _ ha', hg'⟩

/-- A frame returned by `Store::head` decodes from some record of the
partition and has the queried topic. -/
theorem storeHead_mem (p : Partition) (t : String) (g : Frame)
    (h : storeHead p t = some g) : decodedMem p g ∧ g.topic = t := by
  unfold storeHead at h
  obtain ⟨r, hr, hgr⟩ := findSome?_exists _ p.reverse g h
  cases hfs : fromSlice r.2 with
  | none => rw [hfs] at hgr; cases hgr
  | some f =>
    rw [hfs] at hgr
    have hgr' : (if f.topic = t then some f else none) = some g := hgr
    by_cases ht : f.topic = t
    · rw [if_pos ht] at hgr'
      have hfg : f = g := by injection hgr'
      subst hfg
      exact ⟨⟨r, List.mem_reverse.mp hr, hfs⟩, ht⟩
    · rw [if_neg ht] at hgr'
      cases hgr'

theorem runLoop_cons (st : LoopState) (c : Command) (cs : List Command) :
    runLoop st (c :: cs) = (stepCommand st c) >>= fun st' => runLoop st' cs := rfl

/-- Processing only `Append` commands leaves the partition alone and appends
each frame, in command order, to the one live subscriber's channel. -/
theorem runLoop_appends (post : List Frame) :
    ∀ (p : Partition) (received : List Frame),
      runLoop { partition := p, subs := [{ received := received, live := true }] }
          (post.map Command.append) =
        .ok { partition := p,
              subs := [{ received := received ++ post, live := true }] } := by
  induction post with
  | nil =>
    intro p received
    simp only [List.map_nil, List.append_nil]
    rfl
  | cons f rest ih =>
    intro p received
    rw [List.map_cons, runLoop_cons]
    have h1 : stepCommand
        { partition := p, subs := [{ received := received, live := true }] }
        (Command.append f) =
        .ok { partition := p,
              subs := [{ received := received ++ [f], live := true }] } := rfl
    rw [h1, exceptBind_ok, ih]
    simp

/-! ## The claims -/

/-- C1: the claim says the frame identifier is assigned by the Store actor's
command loop and that persistence of `{id → serialized frame}` happens inside
that loop. The code does the opposite: `Store::append` (src/store.rs:190-213)
generates the id itself on the caller's task (`scru128::new()`, with the
code's own TODO noting it should come from the command loop) and inserts into
the partition itself, before sending `Command::Append`; the loop's handling of
an `Append` (src/store.rs:319-328) only fans out to subscribers and leaves the
partition untouched. This theorem evaluates both sides of that divergence. -/
theorem c1_append_id_and_persistence_happen_in_caller :
    (∀ (st : LoopState) (f : Frame),
      stepCommand st (.append f) =
        .ok { partition := st.partition, subs := handleAppendCommand st.subs f }) ∧
    (∀ (p : Partition) (freshId : Nat) (topic : String) (hash meta : Option String),
      (storeAppend p freshId topic hash meta).1.id = freshId ∧
      (storeAppend p freshId topic hash meta).2.1 =
        insertSorted p freshId
          (.good { id := freshId, topic := topic, hash := hash, meta := meta }) ∧
      (storeAppend p freshId topic hash meta).2.2 =
        Command.append { id := freshId, topic := topic, hash := hash, meta := meta }) :=
  ⟨fun _ _ => rfl, fun _ _ _ _ _ => ⟨rfl, rfl, rfl⟩⟩

/-- C2: a subscriber registered by a `Read` command with `follow` on, `tail`
false and no compaction strategy, against a store holding frames `A` and `B`,
receives exactly `A`, `B`, one `xs.threshold` frame, and then every frame
appended after its registration, in append order, with no duplicate and no
gap. -/
theorem c2_subscriber_no_gap_no_dup (ka kb tid : Nat) (A B : Frame)
    (post : List Frame) :
    (runLoop { partition := [(ka, .good A), (kb, .good B)], subs := [] }
        (Command.read { follow := .on, tail := false, lastId := none,
                        compactionStrategy := none } tid ::
          post.map Command.append)).map LoopState.subs =
      .ok [{ received := A :: B :: thresholdFrame tid :: post, live := true }] := by
  have hstep : stepCommand
      { partition := [(ka, .good A), (kb, .good B)], subs := [] }
      (Command.read { follow := .on, tail := false, lastId := none,
                      compactionStrategy := none } tid) =
      .ok { partition := [(ka, .good A), (kb, .good B)],
            subs := [{ received := [A, B, thresholdFrame tid], live := true }] } := rfl
  rw [runLoop_cons, hstep, exceptBind_ok, runLoop_appends]
  rfl

/-- C8: the claim says `wait_for_completion` returns only after every submitted
job has finished. The code increments `active_count` only after a worker has
dequeued the job (src/thread_pool.rs:25-27), so under the schedule where
`execute`'s rendezvous completes and the submitter then runs
`wait_for_completion` before the worker's `fetch_add`, the check reads
`active_count = 0` and returns while the job has not run; the job body only
runs after the barrier already returned. -/
theorem c8_wait_for_completion_returns_before_job_finished :
    (runPool poolInit [.main, .main]).main = .returned ∧
    (runPool poolInit [.main, .main]).jobDone = false ∧
    (runPool poolInit [.main, .main, .worker, .worker]).main = .returned ∧
    (runPool poolInit [.main, .main, .worker, .worker]).jobDone = true :=
  ⟨rfl, rfl, rfl, rfl⟩

/-- Replay with an exclusive `last_id` lower bound, over a well-formed
partition keyed by frame ids, emits exactly the records with larger ids. -/
theorem handleReadCommand_lastId (fs : List Frame) (l tid : Nat) :
    handleReadCommand (fs.map fun f => (f.id, Stored.good f))
        { follow := .off, tail := false, lastId := some l,
          compactionStrategy := none } tid =
      .ok { sent := fs.filter fun f => l < f.id, registered := false } := by
  rw [handleReadCommand_spec]
  have hrs : replaySent (fs.map fun f => (f.id, Stored.good f))
      { follow := .off, tail := false, lastId := some l,
        compactionStrategy := none } = .ok (fs.filter fun f => l < f.id) := by
    unfold replaySent
    rw [if_neg (by simp)]
    show ((getRange (fs.map fun f => (f.id, Stored.good f)) (some l)).foldlM
        (replayStep none) ([], [])).map _ = _
    rw [getRange_map, foldlM_replayStep_none]
    rfl
  rw [hrs]
  rfl

/-- C5: with `tail` false and `last_id` set, replay emits exactly the persisted
frames whose id is strictly greater than `last_id` (the bound is exclusive),
in ascending id order (the scan order of a partition sorted by id); in
particular a two-frame history `[F1, F2]` with `last_id = id(F1)` replays
exactly `[F2]`. -/
theorem c5_replay_after_last_id_exclusive (fs : List Frame) (l tid : Nat)
    (hsorted : fs.Pairwise fun a b => a.id < b.id)
    (F1 F2 : Frame) (hlt : F1.id < F2.id) :
    handleReadCommand (fs.map fun f => (f.id, Stored.good f))
        { follow := .off, tail := false, lastId := some l,
          compactionStrategy := none } tid =
      .ok { sent := fs.filter fun f => l < f.id, registered := false } ∧
    (fs.filter fun f => l < f.id).Pairwise (fun a b => a.id < b.id) ∧
    handleReadCommand [(F1.id, .good F1), (F2.id, .good F2)]
        { follow := .off, tail := false, lastId := some F1.id,
          compactionStrategy := none } tid =
      .ok { sent := [F2], registered := false } := by
  refine ⟨handleReadCommand_lastId fs l tid, ?_, ?_⟩
  · exact List.Pairwise.sublist (List.filter_sublist _) hsorted
  · have h := handleReadCommand_lastId [F1, F2] F1.id tid
    have hfil : [F1, F2].filter (fun f => F1.id < f.id) = [F2] := by
      simp [List.filter_cons, hlt]
    rw [hfil] at h
    exact h

/-- C6: with a compaction strategy and `tail` false, replay emits exactly one
frame per dedup key the strategy produces — for each key the latest frame (by
scan/append order) mapping to that key — and frames with no key are not
emitted: the emitted list is the value list of a map `m` with pairwise-distinct
keys whose lookup at every key is exactly the latest scanned frame for that
key. -/
theorem c6_compaction_emits_latest_per_key (cs : Frame → Option String)
    (fs : List Frame) (fo : FollowOption) (tid : Nat) :
    ∃ m : List (String × Frame),
      handleReadCommand (fs.map fun f => (f.id, Stored.good f))
          { follow := fo, tail := false, lastId := none,
            compactionStrategy := some cs } tid =
        .ok { sent := m.map Prod.snd,
              registered := if fo = .off then false else true } ∧
      (m.map Prod.fst).Nodup ∧
      (∀ kf ∈ m, cs kf.2 = some kf.1) ∧
      (∀ k, lookupA m k = lastWithKey cs fs k) := by
  refine ⟨compactFold cs [] fs, ?_,
    compactFold_keys_nodup cs fs [] (by simp),
    compactFold_entries cs fs [] (by intro kf hkf; cases hkf), ?_⟩
  · rw [handleReadCommand_spec]
    have hrs : replaySent (fs.map fun f => (f.id, Stored.good f))
        { follow := fo, tail := false, lastId := none,
          compactionStrategy := some cs } =
        .ok ((compactFold cs [] fs).map Prod.snd) := by
      unfold replaySent
      rw [if_neg (by simp)]
      show ((getRange (fs.map fun f => (f.id, Stored.good f)) none).foldlM
          (replayStep (some cs)) ([], [])).map _ = _
      rw [show getRange (fs.map fun f => (f.id, Stored.good f)) none =
        fs.map fun f => (f.id, Stored.good f) from rfl]
      rw [foldlM_replayStep_some]
      cases hm : compactFold cs [] fs with
      | nil => rfl
      | cons kv rest => rfl
    rw [hrs]
    cases fo <;> rfl
  · intro k
    rw [compactFold_lookupA]
    cases h' : lastWithKey cs fs k <;> rfl

/-- C6 witness: the theorem applied to the spec's example — topics `a, b, a`
with the dedup key being the topic. -/
theorem c6_witness :
    ∃ m : List (String × Frame),
      handleReadCommand
          ([⟨1, "a", none, none⟩, ⟨2, "b", none, none⟩,
            ⟨3, "a", none, none⟩].map fun f => (f.id, Stored.good f))
          { follow := .off, tail := false, lastId := none,
            compactionStrategy := some fun f => some f.topic } 9 =
        .ok { sent := m.map Prod.snd, registered := false } ∧
      (m.map Prod.fst).Nodup ∧
      (∀ kf ∈ m, some kf.2.topic = some kf.1) ∧
      (∀ k, lookupA m k = lastWithKey (fun f => some f.topic)
        [⟨1, "a", none, none⟩, ⟨2, "b", none, none⟩, ⟨3, "a", none, none⟩] k) :=
  c6_compaction_emits_latest_per_key (fun f => some f.topic)
    [⟨1, "a", none, none⟩, ⟨2, "b", none, none⟩, ⟨3, "a", none, none⟩] .off 9

/-- C7: when following, exactly one synthetic `xs.threshold` frame is sent,
after replay and before registration, precisely when `tail` is false and no
compaction strategy is set; otherwise none is sent. The threshold's fresh id
`tid` decodes from no partition record, so counting frames with id `tid`
counts exactly the synthetic threshold frames. -/
theorem c7_threshold_iff_nontail_uncompacted (p : Partition) (opts : ReadOptions)
    (tid : Nat) (r : ReadResult)
    (hfollow : opts.follow ≠ .off)
    (hfresh : ∀ g, decodedMem p g → g.id ≠ tid)
    (h : handleReadCommand p opts tid = .ok r) :
    r.registered = true ∧
    (if opts.tail = false ∧ opts.compactionStrategy.isNone = true
      then ∃ pre, r.sent = pre ++ [thresholdFrame tid] ∧
        pre.countP (fun g => g.id = tid) = 0
      else r.sent.countP (fun g => g.id = tid) = 0) := by
  rw [handleReadCommand_spec] at h
  cases hro : replaySent p opts with
  | error e =>
    rw [hro] at h
    exact Except.noConfusion h
  | ok sent =>
    rw [hro] at h
    have hsent : sent.countP (fun g => g.id = tid) = 0 := by
      rw [List.countP_eq_zero]
      intro g hg
      simp only [decide_eq_true_eq]
      exact hfresh g (replaySent_mem p opts sent hro g hg)
    cases hf : opts.follow
    · exact absurd hf hfollow
    · rw [hf] at h
      have hr : ({ sent := if !opts.tail && opts.compactionStrategy.isNone
          then sent ++ [thresholdFrame tid] else sent, registered := true } : ReadResult)
          = r := by injection h
      rw [← hr]
      refine ⟨rfl, ?_⟩
      by_cases hc : (!opts.tail && opts.compactionStrategy.isNone) = true
      · have hcp : opts.tail = false ∧ opts.compactionStrategy.isNone = true := by
          have h' := hc
          simp only [Bool.and_eq_true, Bool.not_eq_true'] at h'
          exact h'
        rw [if_pos hcp]
        refine ⟨sent, ?_, hsent⟩
        simp only [hc, if_true]
      · have hcp : ¬(opts.tail = false ∧ opts.compactionStrategy.isNone = true) := by
          rintro ⟨h1, h2⟩
          exact hc (by rw [h1, h2]; rfl)
        rw [if_neg hcp]
        simp only [hc, if_false]
        exact hsent
    · rw [hf] at h
      have hr : ({ sent := if !opts.tail && opts.compactionStrategy.isNone
          then sent ++ [thresholdFrame tid] else sent, registered := true } : ReadResult)
          = r := by injection h
      rw [← hr]
      refine ⟨rfl, ?_⟩
      by_cases hc : (!opts.tail && opts.compactionStrategy.isNone) = true
      · have hcp : opts.tail = false ∧ opts.compactionStrategy.isNone = true := by
          have h' := hc
          simp only [Bool.and_eq_true, Bool.not_eq_true'] at h'
          exact h'
        rw [if_pos hcp]
        refine ⟨sent, ?_, hsent⟩
        simp only [hc, if_true]
      · have hcp : ¬(opts.tail = false ∧ opts.compactionStrategy.isNone = true) := by
          rintro ⟨h1, h2⟩
          exact hc (by rw [h1, h2]; rfl)
        rw [if_neg hcp]
        simp only [hc, if_false]
        exact hsent

/-- C10: a `read` with `tail = true` and `follow = Off` replays nothing, sends
no `xs.threshold` frame, spawns no heartbeat task and registers no subscriber,
whatever the partition, resume point and compaction strategy; with nothing
registered and the reply sender dropped, the returned channel closes without
yielding a frame. -/
theorem c10_tail_no_follow_yields_nothing_and_closes (p : Partition) (tid : Nat)
    (lastId : Option Nat) (strat : Option (Frame → Option String)) :
    storeRead p { follow := .off, tail := true, lastId := lastId,
                  compactionStrategy := strat } tid =
      .ok { sent := [], heartbeatSpawned := false, registered := false } := rfl

/-- Records that fail to deserialize do not change the result of a
`findSome?` whose function rejects them. -/
theorem findSome?_filter_isSome {β : Type} (g : Nat × Stored → Option β)
    (hg : ∀ r, fromSlice r.2 = none → g r = none) :
    ∀ l : List (Nat × Stored),
      (l.filter fun r => (fromSlice r.2).isSome).findSome? g = l.findSome? g := by
  intro l
  induction l with
  | nil => rfl
  | cons r rest ih =>
    rw [List.filter_cons, List.findSome?_cons]
    cases hfs : fromSlice r.2 with
    | none =>
      rw [hg r hfs]
      simp only [hfs, Option.isSome_none, Bool.false_eq_true, if_false]
      exact ih
    | some f =>
      simp only [hfs, Option.isSome_some, if_true]
      rw [List.findSome?_cons]
      cases g r with
      | some b => rfl
      | none => exact ih

/-- C4 (amended): a persisted record that fails to deserialize is fatal for
replay (`deserialize_frame` panics mid-scan) and for `get`
(`from_slice(..).unwrap()`), but `Store::head` does *not* halt: its `find_map`
closure turns a deserialization failure into `None` (`.ok()?`), so the reverse
scan silently skips the record and continues. -/
theorem c4_corruption_fatal_for_replay_get_but_head_skips :
    (∀ (p : Partition) (opts : ReadOptions) (tid : Nat),
      opts.tail = false →
      (∃ r ∈ getRange p opts.lastId, fromSlice r.2 = none) →
      ∃ e, handleReadCommand p opts tid = .error e) ∧
    (∀ (p : Partition) (i : Nat), p.lookup i = some .corrupt →
      storeGet p i = .error "Failed to deserialize frame") ∧
    (∀ (p : Partition) (t : String),
      storeHead p t = storeHead (p.filter fun r => (fromSlice r.2).isSome) t) := by
  refine ⟨?_, ?_, ?_⟩
  · intro p opts tid htail hex
    obtain ⟨e, he⟩ := foldlM_replayStep_corrupt opts.compactionStrategy
      (getRange p opts.lastId) ([], []) hex
    refine ⟨e, ?_⟩
    rw [handleReadCommand_spec]
    have hrs : replaySent p opts = .error e := by
      unfold replaySent
      rw [if_neg (by rw [htail]; exact Bool.false_ne_true), he]
      rfl
    rw [hrs]
    rfl
  · intro p i hl
    unfold storeGet
    rw [hl]
    rfl
  · intro p t
    unfold storeHead
    rw [← List.filter_reverse]
    exact (findSome?_filter_isSome _ (fun r hr => by rw [hr]) p.reverse).symm

/-- C4 counterexample: on a partition whose reverse scan meets a corrupt
record first, `Store::head` does not halt — it skips the corrupt record and
successfully returns the older matching frame. -/
theorem c4_head_skips_corruption_counterexample :
    storeHead [(1, Stored.good { id := 1, topic := "a", hash := none, meta := none }),
               (2, Stored.corrupt)] "a" =
      some { id := 1, topic := "a", hash := none, meta := none } ∧
    fromSlice (2, Stored.corrupt).2 = none := ⟨by decide, rfl⟩

/-- C4 witness: the amended theorem applied at concrete inputs. -/
theorem c4_witness :
    (∃ e, handleReadCommand [(1, Stored.corrupt)] {} 5 = .error e) ∧
    storeGet [(1, Stored.corrupt)] 1 = .error "Failed to deserialize frame" ∧
    storeHead [(1, Stored.good { id := 1, topic := "a", hash := none, meta := none }),
               (2, Stored.corrupt)] "a" =
      storeHead ([(1, Stored.good { id := 1, topic := "a", hash := none, meta := none }),
                  (2, Stored.corrupt)].filter fun r => (fromSlice r.2).isSome) "a" := by
  obtain ⟨h1, h2, h3⟩ := c4_corruption_fatal_for_replay_get_but_head_skips
  have hmem : (1, Stored.corrupt) ∈ getRange [(1, Stored.corrupt)]
      ({} : ReadOptions).lastId := by
    show (1, Stored.corrupt) ∈ ([(1, Stored.corrupt)] : Partition)
    simp
  exact ⟨h1 [(1, Stored.corrupt)] {} 5 rfl ⟨(1, Stored.corrupt), hmem, rfl⟩,
         h2 [(1, Stored.corrupt)] 1 (by decide),
         h3 _ "a"⟩

/-- C3 (spec-modelled): appending a frame with TTL `Ephemeral` writes nothing
to the partition — it is delivered only to the currently-registered live
subscribers — and, the partition being unchanged and the fresh id decoding
from no persisted record, the frame is never returned by any later replay,
`get`, or `head`. -/
theorem c3_ephemeral_bypasses_persistence (p : Partition) (subs : List Sub)
    (freshId : Nat) (topic : String) (hash meta : Option String)
    (hfresh : ∀ r ∈ p, ∀ g, fromSlice r.2 = some g → g.id ≠ freshId)
    (hlook : p.lookup freshId = none) :
    appendWithTTL p subs freshId topic hash meta .ephemeral =
      ({ id := freshId, topic := topic, hash := hash, meta := meta }, p,
        handleAppendCommand subs
          { id := freshId, topic := topic, hash := hash, meta := meta }) ∧
    (∀ (opts : ReadOptions) (tid : Nat) (r : ReadResult), tid ≠ freshId →
      handleReadCommand p opts tid = .ok r →
      ({ id := freshId, topic := topic, hash := hash, meta := meta } : Frame) ∉ r.sent) ∧
    storeGet p freshId = .ok none ∧
    (∀ (t : String) (g : Frame), storeHead p t = some g →
      g ≠ { id := freshId, topic := topic, hash := hash, meta := meta }) := by
  refine ⟨rfl, ?_, ?_, ?_⟩
  · intro opts tid r htid hread hmem
    rcases handleReadCommand_sent_mem p opts tid r hread _ hmem with ⟨rr, hrr, hdd⟩ | heq
    · exact hfresh rr hrr _ hdd rfl
    · exact htid (congrArg Frame.id heq).symm
  · unfold storeGet
    rw [hlook]
  · intro t g hg heq
    obtain ⟨⟨rr, hrr, hdd⟩, -⟩ := storeHead_mem p t g hg
    subst heq
    exact hfresh rr hrr _ hdd rfl

/-- C3 witness: the theorem applied at a concrete store state. -/
theorem c3_witness :
    appendWithTTL [(1, Stored.good { id := 1, topic := "s", hash := none, meta := none })]
        [{ received := [], live := true }] 2 "e" none none .ephemeral =
      ({ id := 2, topic := "e", hash := none, meta := none },
       [(1, Stored.good { id := 1, topic := "s", hash := none, meta := none })],
       [{ received := [{ id := 2, topic := "e", hash := none, meta := none }],
          live := true }]) ∧
    storeGet [(1, Stored.good { id := 1, topic := "s", hash := none, meta := none })] 2 =
      .ok none := by
  have hfresh : ∀ r ∈ ([(1, Stored.good ⟨1, "s", none, none⟩)] : Partition),
      ∀ g, fromSlice r.2 = some g → g.id ≠ 2 := by
    intro r hr g hgg
    simp only [List.mem_singleton] at hr
    subst hr
    have hgf : (⟨1, "s", none, none⟩ : Frame) = g := by injection hgg
    rw [← hgf]
    decide
  obtain ⟨h1, -, h3, -⟩ := c3_ephemeral_bypasses_persistence
    [(1, Stored.good { id := 1, topic := "s", hash := none, meta := none })]
    [{ received := [], live := true }] 2 "e" none none hfresh (by decide)
  exact ⟨h1, h3⟩

/-- C5 witness: the theorem applied to the concrete two-frame history. -/
theorem c5_witness :
    handleReadCommand [(1, Stored.good { id := 1, topic := "s", hash := none, meta := none }),
                       (2, Stored.good { id := 2, topic := "s", hash := none, meta := none })]
        { follow := .off, tail := false, lastId := some 1,
          compactionStrategy := none } 9 =
      .ok { sent := [{ id := 2, topic := "s", hash := none, meta := none }],
            registered := false } := by
  exact (c5_replay_after_last_id_exclusive
    [{ id := 1, topic := "s", hash := none, meta := none },
     { id := 2, topic := "s", hash := none, meta := none }] 1 9
    (by simp [List.pairwise_cons])
    { id := 1, topic := "s", hash := none, meta := none }
    { id := 2, topic := "s", hash := none, meta := none } (by decide)).2.2

/-- C7 witness: the theorem applied to a one-frame store and a following,
non-tail, non-compacted read, whose reply is `[frame, threshold]`. -/
theorem c7_witness :
    (({ sent := [{ id := 1, topic := "s", hash := none, meta := none },
                 thresholdFrame 9], registered := true } : ReadResult).registered = true) ∧
    (∃ pre, ({ sent := [{ id := 1, topic := "s", hash := none, meta := none },
                 thresholdFrame 9], registered := true } : ReadResult).sent =
        pre ++ [thresholdFrame 9] ∧
      pre.countP (fun g => g.id = 9) = 0) := by
  have hfresh : ∀ g, decodedMem [(1, Stored.good ⟨1, "s", none, none⟩)] g →
      g.id ≠ 9 := by
    rintro g ⟨r, hr, hd⟩
    simp only [List.mem_singleton] at hr
    subst hr
    have hgf : (⟨1, "s", none, none⟩ : Frame) = g := by injection hd
    rw [← hgf]
    decide
  have h := c7_threshold_iff_nontail_uncompacted
    [(1, Stored.good { id := 1, topic := "s", hash := none, meta := none })]
    { follow := .on, tail := false, lastId := none, compactionStrategy := none } 9
    { sent := [{ id := 1, topic := "s", hash := none, meta := none }, thresholdFrame 9],
      registered := true }
    (by decide) hfresh rfl
  exact h

/-! ### C9: query-string decoding -/

/-- An unparsable `last-id` anywhere in the query fails the whole query,
whatever option state has been accumulated. -/
theorem foldlM_applyPair_lastId_fail (v : String) (hv : parseScru128 v = none) :
    ∀ pairs : List (String × String), ("last-id", v) ∈ pairs →
      ∀ o : ReadOptions, List.foldlM applyPair o pairs = none := by
  intro pairs
  induction pairs with
  | nil => intro hmem; cases hmem
  | cons kv rest ih =>
    intro hmem o
    rw [List.foldlM_cons]
    rcases List.mem_cons.mp hmem with heq | hmem'
    · subst heq
      have hap : applyPair o ("last-id", v) = none := by
        have hbody : applyPair o ("last-id", v) =
            if ("last-id" : String) = "follow"
            then (parseFollow v).map fun fo => { o with follow := fo }
            else if ("last-id" : String) = "tail"
            then some { o with tail := parseTail v }
            else if ("last-id" : String) = "last-id"
            then (parseScru128 v).map fun i => { o with lastId := some i }
            else some o := rfl
        have hne1 : ¬(("last-id" : String) = "follow") := by decide
        have hne2 : ¬(("last-id" : String) = "tail") := by decide
        rw [hbody, if_neg hne1, if_neg hne2, if_pos rfl, hv]
        rfl
      rw [hap]
      rfl
    · cases hap : applyPair o kv with
      | none => rfl
      | some o' => exact ih hmem' o'

/-- C9: the query decoding maps `follow` values — key present with empty
value, `yes`, or `true` — to `On`; a string parsing as `u64` to
`WithHeartbeat` of that many milliseconds; `false`/`no` to `Off`; maps `tail`
values `false`, `no`, `0` to `false` and anything else to `true`; and rejects
the whole query when `last-id` does not parse as a valid SCRU128 identifier. -/
theorem c9_query_option_mappings :
    parseFollow "" = some .on ∧
    parseFollow "yes" = some .on ∧
    parseFollow "true" = some .on ∧
    (∀ (s : String) (n : Nat), parseU64 s = some n →
      parseFollow s = some (.withHeartbeat n)) ∧
    parseFollow "false" = some .off ∧
    parseFollow "no" = some .off ∧
    (∀ s : String, parseTail s = if s = "false" ∨ s = "no" ∨ s = "0"
      then false else true) ∧
    (∀ (pairs : List (String × String)) (v : String),
      ("last-id", v) ∈ pairs → parseScru128 v = none → fromQuery pairs = none) := by
  refine ⟨by decide, by decide, by decide, ?_, by decide, by decide, fun s => rfl, ?_⟩
  · intro s n h
    have h1 : ¬(s = "" ∨ s = "yes") := by
      rintro (rfl | rfl)
      · rw [show parseU64 "" = none from rfl] at h
        exact Option.noConfusion h
      · rw [show parseU64 "yes" = none from by decide] at h
        exact Option.noConfusion h
    unfold parseFollow
    rw [if_neg h1, h]
  · intro pairs v hmem hv
    exact foldlM_applyPair_lastId_fail v hv pairs hmem {}

/-- C9 witness: the theorem applied at concrete query fragments. -/
theorem c9_witness :
    parseFollow "750" = some (.withHeartbeat 750) ∧
    parseTail "0" = false ∧
    fromQuery [("last-id", "123")] = none := by
  obtain ⟨-, -, -, hnum, -, -, htail, hlast⟩ := c9_query_option_mappings
  refine ⟨hnum "750" 750 (by decide), ?_,
    hlast [("last-id", "123")] "123" (by simp) (by decide)⟩
  rw [htail "0"]
  decide

end Xs
